import Mathlib

/-!
Verification of `scripts/enumerate-igp-tunnels.py`.

The script derives, per router, the set of IGP neighbours (mesh clique plus
explicitly declared upstreams, with reverse edges added), and allocates a
Wireguard port to every unordered pair of routers, persisting the allocation
across runs through the `next_port` counter and the `igp_wg_ports` table.

We embed the script shallowly: Python dicts become association lists keyed by
`String` (preserving insertion order and first-key lookup), Python sets of
router names become `Finset String`, and the `raise ValueError` paths become
an `Except Err` result.
-/

namespace IgpTunnels

/-- Per-router inventory attributes used by the script: the (globally unique)
`shortname` and the optional `igp_upstreams` list (absent list ↦ `[]`,
matching `serverdata.get('igp_upstreams', [])`). -/
structure RouterData where
  shortname : String
  igp_upstreams : List String
deriving DecidableEq, Repr

/-- Modelled from the spec: the inventory shape produced by the plumbing
(`yaml_load('hosts.yml')` / `get_hosts`, which live in the missing `_common`
module).  Per spec §6 the core consumes a mapping `router_id ↦
{shortname, igp_upstreams?}` (a dict, hence an insertion-ordered list of
key/value pairs with unique keys) plus the designated set of mesh-member
router ids (`hosts['meshrouters']['hosts']`). -/
structure Inventory where
  routers : List (String × RouterData)
  meshrouters : List String
deriving DecidableEq, Repr

/-- The persisted state (`global-config/igp-tunnels.yml`): `next_port`,
`igp_neighbours` and `igp_wg_ports`, as loaded/written by the script. -/
structure State where
  next_port : Nat
  igp_neighbours : List (String × Finset String)
  igp_wg_ports : List (String × Nat)
deriving DecidableEq

/-- The two `ValueError`s raised by `main` (duplicate shortname at line 43,
mesh/upstream XOR violation at line 56). -/
inductive Err where
  | dupShortname (shortname first second : String)
  | xorViolation (server : String)
deriving DecidableEq, Repr

/-- Python dict lookup (`d[k]` / `k in d`): first (hence unique) matching key. -/
def alookup {β : Type} (k : String) : List (String × β) → Option β
  | [] => none
  | p :: rest => if p.1 = k then some p.2 else alookup k rest

/-- Python dict assignment `d[k] = v`: update in place if the key exists
(keeping its position), otherwise append at the end. -/
def dictSet {β : Type} (k : String) (v : β) : List (String × β) → List (String × β)
  | [] => [(k, v)]
  | p :: rest => if p.1 = k then (k, v) :: rest else p :: dictSet k v rest

/-- `d.setdefault(k, set())`: ensure an entry for `k` exists (appending an
empty set when absent), leaving present entries untouched. -/
def setdefaultEmpty (d : List (String × Finset String)) (k : String) :
    List (String × Finset String) :=
  match alookup k d with
  | some _ => d
  | none => d ++ [(k, ∅)]

/-- The adjacency-building body of the per-router loop (lines 37-61), minus
the two raising checks: `setdefault` the server's entry, union in the other
mesh members when the server is a mesh member (removing the server itself),
union in the declared upstreams, and add the server to each upstream's
entry.  `set(serverdata.get('igp_upstreams', []))` is modelled by `dedup`
(iteration) / `toFinset` (union). -/
def updateAdj (mesh : List String) (d : List (String × Finset String))
    (server : String) (sd : RouterData) : List (String × Finset String) :=
  let d1 := setdefaultEmpty d server
  let cur0 := (alookup server d1).getD ∅
  let cur1 := if server ∈ mesh then (cur0 ∪ mesh.toFinset).erase server else cur0
  let ups := sd.igp_upstreams.dedup
  let cur2 := cur1 ∪ ups.toFinset
  let d2 := dictSet server cur2 d1
  ups.foldl (fun d u => dictSet u (insert server ((alookup u d).getD ∅)) d) d2

/-- The running state of the per-router loop: the `igp_neighbours` dict being
rebuilt and the `seen_shortnames` dict. -/
structure DeriveState where
  igp_neighbours : List (String × Finset String)
  seen_shortnames : List (String × String)
deriving DecidableEq

/-- One iteration of the per-router loop (lines 37-61).  The duplicate
shortname check (lines 42-43) and the mesh/upstream XOR check (lines 55-56)
abort the whole run, so an iteration yields either the first error raised or
the updated loop state.  (In the script the `setdefault` and the mesh union
textually precede the raises; since a raise discards the in-memory state and
the checks do not read `igp_neighbours`, performing the checks first is
observationally identical.) -/
def processRouter (mesh : List String) (st : DeriveState)
    (server : String) (sd : RouterData) : Except Err DeriveState :=
  match alookup sd.shortname st.seen_shortnames with
  | some first => .error (.dupShortname sd.shortname first server)
  | none =>
    if decide (server ∈ mesh) = !sd.igp_upstreams.isEmpty then
      .error (.xorViolation server)
    else
      .ok { igp_neighbours := updateAdj mesh st.igp_neighbours server sd,
            seen_shortnames := st.seen_shortnames ++ [(sd.shortname, server)] }

/-- The per-router `for` loop with `raise` semantics. -/
def deriveAux (mesh : List String) (st : DeriveState) :
    List (String × RouterData) → Except Err DeriveState
  | [] => .ok st
  | p :: rest =>
    match processRouter mesh st p.1 p.2 with
    | .error e => .error e
    | .ok st' => deriveAux mesh st' rest

/-- Adjacency derivation (lines 33-61): `igp_neighbours` is cleared and
rebuilt from the inventory alone. -/
def deriveAdjacency (inv : Inventory) : Except Err (List (String × Finset String)) :=
  match deriveAux inv.meshrouters ⟨[], []⟩ inv.routers with
  | .error e => .error e
  | .ok st => .ok st.igp_neighbours

/-- `','.join((a, b))` — the string key of an ordered router pair. -/
def pairKey (a b : String) : String := a ++ "," ++ b

/-- `itertools.combinations(l, 2)`: all pairs of elements at strictly
increasing positions, in enumeration order. -/
def combinations2 {α : Type} : List α → List (α × α)
  | [] => []
  | x :: xs => xs.map (fun y => (x, y)) ++ combinations2 xs

/-- The port-loop body (lines 65-75): if either key ordering of the pair is
absent, write `next_port` under both orderings (`cmb` first, then
`cmb_reverse`) and increment; otherwise leave the state untouched. -/
def allocStep (st : Nat × List (String × Nat)) (pr : String × String) :
    Nat × List (String × Nat) :=
  let cmb := pairKey pr.1 pr.2
  let cmbRev := pairKey pr.2 pr.1
  if (alookup cmb st.2).isNone || (alookup cmbRev st.2).isNone then
    (st.1 + 1, dictSet cmbRev st.1 (dictSet cmb st.1 st.2))
  else st

/-- The port-allocation `for` loop. -/
def allocAux (st : Nat × List (String × Nat)) :
    List (String × String) → Nat × List (String × Nat)
  | [] => st
  | pr :: rest => allocAux (allocStep st pr) rest

/-- Port allocation (lines 63-75): extend the prior table with a fresh port
for every enumerated pair of routers not already fully present. -/
def allocatePorts (routerIds : List String) (next_port : Nat)
    (ports : List (String × Nat)) : Nat × List (String × Nat) :=
  allocAux (next_port, ports) (combinations2 routerIds)

/-- One full run of `main` (minus file I/O): derive adjacency, then extend
the port table, producing the state that would be written back, or the first
`ValueError` raised. -/
def run (inv : Inventory) (prior : State) : Except Err State :=
  match deriveAdjacency inv with
  | .error e => .error e
  | .ok adj =>
    let a := allocatePorts (inv.routers.map Prod.fst) prior.next_port prior.igp_wg_ports
    .ok { next_port := a.1, igp_neighbours := adj, igp_wg_ports := a.2 }

/-- The externally visible effect of a run on the persisted file: it is
overwritten on success (lines 78-80) and left untouched when a `ValueError`
aborts the process first. -/
def runPersist (inv : Inventory) (prior : State) : State :=
  match run inv prior with
  | .ok st => st
  | .error _ => prior

/-- The default prior state used when the output file does not exist yet
(lines 20-25): `next_port = 55000` and empty mappings. -/
def defaultState : State :=
  { next_port := 55000, igp_neighbours := [], igp_wg_ports := [] }

/-- The neighbour set a run computes for router `a`: `igp_neighbours[a]`,
defaulting to the empty set for routers without an entry. -/
def lookupAdj (d : List (String × Finset String)) (a : String) : Finset String :=
  (alookup a d).getD ∅

/-- The mesh contribution to `a`'s neighbour set: all other mesh members when
`a` is a mesh member, nothing otherwise. -/
def meshNeighbours (mesh : List String) (a : String) : Finset String :=
  if a ∈ mesh then mesh.toFinset.erase a else ∅

/-- The reverse-edge contribution to `a`'s neighbour set from the routers of
`ps`: those routers that list `a` among their `igp_upstreams`. -/
def revNeighbours (ps : List (String × RouterData)) (a : String) : Finset String :=
  ((ps.filter (fun p => decide (a ∈ p.2.igp_upstreams))).map Prod.fst).toFinset

/-- The per-router structural constraint violation of lines 55-56, stated the
way the spec states it: the router is a mesh member that also declares
upstreams, or is neither a mesh member nor declares any upstream. -/
def violatesXor (mesh : List String) (p : String × RouterData) : Prop :=
  (p.1 ∈ mesh ∧ p.2.igp_upstreams ≠ []) ∨ (p.1 ∉ mesh ∧ p.2.igp_upstreams = [])

instance {ε α : Type} [DecidableEq ε] [DecidableEq α] : DecidableEq (Except ε α) := fun a b =>
  match a, b with
  | .error e, .error f => decidable_of_iff (e = f) (by simp)
  | .error _, .ok _ => isFalse (by simp)
  | .ok _, .error _ => isFalse (by simp)
  | .ok x, .ok y => decidable_of_iff (x = y) (by simp)

instance (mesh : List String) (p : String × RouterData) :
    Decidable (violatesXor mesh p) := by
  unfold violatesXor; infer_instance

/-- The neighbour set written for `s` by its own loop iteration, before the
possible self-insertion caused by `s ∈ igp_upstreams(s)`. -/
def newEntry (mesh : List String) (d : List (String × Finset String))
    (s : String) (sd : RouterData) : Finset String :=
  (if s ∈ mesh then (((alookup s d).getD ∅) ∪ mesh.toFinset).erase s
   else (alookup s d).getD ∅) ∪ sd.igp_upstreams.dedup.toFinset

/-- Invariant of the per-router loop: after the routers of `ps` have been
processed, a processed router's entry is its mesh contribution, its declared
upstreams, and the reverse edges from processed routers naming it; an
unprocessed name has an entry exactly when some processed router named it as
an upstream, holding exactly those reverse edges. -/
def adjInv (mesh : List String) (ps : List (String × RouterData))
    (d : List (String × Finset String)) : Prop :=
  ∀ a : String,
    match alookup a ps with
    | some sd =>
        alookup a d =
          some (meshNeighbours mesh a ∪ sd.igp_upstreams.toFinset ∪ revNeighbours ps a)
    | none =>
        alookup a d =
          if (revNeighbours ps a).Nonempty then some (revNeighbours ps a) else none

/-- The raising behaviour of the per-router loop in isolation: the first
error the loop raises, if any, starting from the `seen_shortnames` dict
`seen`. -/
def checkRouters (mesh : List String) (seen : List (String × String)) :
    List (String × RouterData) → Option Err
  | [] => none
  | (s, sd) :: rest =>
    match alookup sd.shortname seen with
    | some first => some (.dupShortname sd.shortname first s)
    | none =>
      if decide (s ∈ mesh) = !sd.igp_upstreams.isEmpty then some (.xorViolation s)
      else checkRouters mesh (seen ++ [(sd.shortname, s)]) rest

/-- A port table is symmetric under swapping the two components of every
string pair key. -/
def fullSym (ports : List (String × Nat)) : Prop :=
  ∀ a b : String, alookup (pairKey a b) ports = alookup (pairKey b a) ports

/-- Three-router full-mesh inventory (the spec's first scenario). -/
def invMesh3 : Inventory :=
  ⟨[("X", ⟨"x", []⟩), ("Y", ⟨"y", []⟩), ("Z", ⟨"z", []⟩)], ["X", "Y", "Z"]⟩

/-- The state a run on `invMesh3` produces from the default prior state. -/
def outMesh3 : State :=
  { next_port := 55003,
    igp_neighbours := [("X", {"Y", "Z"}), ("Y", {"X", "Z"}), ("Z", {"X", "Y"})],
    igp_wg_ports := [("X,Y", 55000), ("Y,X", 55000), ("X,Z", 55001), ("Z,X", 55001),
                     ("Y,Z", 55002), ("Z,Y", 55002)] }

/-- Two mesh routers plus a leaf declaring one of them as upstream. -/
def invUp : Inventory :=
  ⟨[("M1", ⟨"m1", []⟩), ("M2", ⟨"m2", []⟩), ("L", ⟨"l", ["M1"]⟩)], ["M1", "M2"]⟩

/-- The adjacency table derived from `invUp`. -/
def adjUp : List (String × Finset String) :=
  [("M1", {"M2", "L"}), ("M2", {"M1"}), ("L", {"M1"})]

/-- A lone router that is neither a mesh member nor declares upstreams. -/
def invXor : Inventory := ⟨[("A", ⟨"a", []⟩)], []⟩

/-- Router `A` violates the XOR constraint (mesh member with upstreams),
while the later routers `B` and `C` share the shortname `s`. -/
def invDupXor : Inventory :=
  ⟨[("A", ⟨"a", ["B"]⟩), ("B", ⟨"s", []⟩), ("C", ⟨"s", []⟩)], ["A", "B", "C"]⟩

/-- Two mesh routers sharing the shortname `s`. -/
def invDup : Inventory :=
  ⟨[("B", ⟨"s", []⟩), ("C", ⟨"s", []⟩)], ["B", "C"]⟩

/-- A full mesh whose router identifiers contain commas, so that distinct
pairs produce colliding string keys. -/
def invComma : Inventory :=
  ⟨[("X", ⟨"s1", []⟩), ("Y,X", ⟨"s2", []⟩), ("X,Y", ⟨"s3", []⟩)], ["X", "Y,X", "X,Y"]⟩

/-- A lone leaf router declaring the phantom upstream `U`, which is not in
the inventory. -/
def invPhantom : Inventory := ⟨[("A", ⟨"a", ["U"]⟩)], []⟩

section Lemmas

variable {β : Type}

theorem alookup_nil (k : String) : alookup (β := β) k [] = none := rfl

theorem alookup_cons (k : String) (p : String × β) (l : List (String × β)) :
    alookup k (p :: l) = if p.1 = k then some p.2 else alookup k l := rfl

theorem alookup_append (k : String) (l₁ l₂ : List (String × β)) :
    alookup k (l₁ ++ l₂) =
      match alookup k l₁ with
      | some v => some v
      | none => alookup k l₂ := by
  induction l₁ with
  | nil => simp [alookup]
  | cons p rest ih =>
    simp only [List.cons_append, alookup_cons]
    split
    · rfl
    · exact ih

theorem alookup_dictSet (k k' : String) (v : β) (l : List (String × β)) :
    alookup k' (dictSet k v l) = if k' = k then some v else alookup k' l := by
  induction l with
  | nil =>
    simp only [dictSet, alookup_cons, alookup_nil]
    by_cases h : k' = k
    · simp [h]
    · have h2 : ¬ k = k' := fun h' => h h'.symm
      simp [h, h2]
  | cons p rest ih =>
    simp only [dictSet]
    split
    · rename_i hp
      by_cases h : k' = k
      · simp [alookup_cons, h]
      · have h2 : ¬ k = k' := fun h' => h h'.symm
        have hpk : ¬ p.1 = k' := fun h' => h (h'.symm.trans hp)
        simp [alookup_cons, h, h2, hpk]
    · rename_i hp
      by_cases h : p.1 = k'
      · have hk : ¬ k' = k := fun h' => hp (h ▸ h')
        simp [alookup_cons, h, hk]
      · simp [alookup_cons, h, ih]

theorem alookup_isSome_dictSet (k k' : String) (v : β) (l : List (String × β))
    (h : (alookup k' l).isSome) : (alookup k' (dictSet k v l)).isSome := by
  rw [alookup_dictSet]
  split <;> simp_all

/-- A key's value can be found among the entries. -/
theorem mem_of_alookup_eq_some {k : String} {v : β} :
    ∀ {l : List (String × β)}, alookup k l = some v → (k, v) ∈ l
  | p :: rest, h => by
    rw [alookup_cons] at h
    split at h
    · rename_i hp
      obtain ⟨p1, p2⟩ := p
      injection h with h2
      subst h2
      cases hp
      exact List.mem_cons_self _ _
    · exact List.mem_cons.mpr (.inr (mem_of_alookup_eq_some h))

theorem alookup_eq_none_iff {k : String} {l : List (String × β)} :
    alookup k l = none ↔ k ∉ l.map Prod.fst := by
  induction l with
  | nil => simp [alookup]
  | cons p rest ih =>
    simp only [alookup_cons, List.map_cons, List.mem_cons]
    split
    · rename_i hp
      simp [hp]
    · rename_i hp
      have h2 : ¬ k = p.1 := fun h' => hp h'.symm
      simp [ih, h2]

theorem alookup_isSome_iff {k : String} {l : List (String × β)} :
    (alookup k l).isSome ↔ k ∈ l.map Prod.fst := by
  cases h : alookup k l with
  | none =>
    simp only [Option.isSome_none, Bool.false_eq_true, false_iff]
    exact alookup_eq_none_iff.mp h
  | some v =>
    simp only [Option.isSome_some, true_iff]
    exact List.mem_map.mpr ⟨(k, v), mem_of_alookup_eq_some h, rfl⟩

/-- Entries of a dict after assignment: the assigned pair or an original entry. -/
theorem mem_dictSet {k : String} {v : β} {p : String × β} :
    ∀ {l : List (String × β)}, p ∈ dictSet k v l → p = (k, v) ∨ p ∈ l
  | [], h => by
    simp only [dictSet, List.mem_singleton] at h
    exact Or.inl h
  | q :: rest, h => by
    simp only [dictSet] at h
    split at h
    · rcases List.mem_cons.mp h with h | h
      · exact Or.inl h
      · exact Or.inr (List.mem_cons.mpr (.inr h))
    · rcases List.mem_cons.mp h with h | h
      · exact Or.inr (List.mem_cons.mpr (.inl h))
      · rcases mem_dictSet h with h | h
        · exact Or.inl h
        · exact Or.inr (List.mem_cons.mpr (.inr h))

theorem alookup_setdefaultEmpty (d : List (String × Finset String)) (k a : String) :
    alookup a (setdefaultEmpty d k) =
      if a = k then some ((alookup k d).getD ∅) else alookup a d := by
  unfold setdefaultEmpty
  cases h : alookup k d with
  | some v =>
    by_cases ha : a = k
    · subst ha; simp [h]
    · simp [ha]
  | none =>
    rw [alookup_append]
    by_cases ha : a = k
    · subst ha; simp [h, alookup_cons, alookup_nil]
    · cases hd : alookup a d with
      | some w => simp [hd, ha]
      | none =>
        have h2 : ¬ k = a := fun h' => ha h'.symm
        simp [hd, alookup_cons, alookup_nil, ha, h2]

end Lemmas

section Adjacency

theorem alookup_revFold (server a : String) :
    ∀ (ups : List String) (d : List (String × Finset String)), ups.Nodup →
      alookup a (ups.foldl (fun d u => dictSet u (insert server ((alookup u d).getD ∅)) d) d) =
        if a ∈ ups then some (insert server ((alookup a d).getD ∅)) else alookup a d
  | [], d, _ => by simp
  | u :: us, d, hnd => by
    simp only [List.foldl_cons]
    rw [alookup_revFold server a us _ (List.Nodup.of_cons hnd)]
    by_cases hau : a = u
    · subst hau
      have hnotin : a ∉ us := (List.nodup_cons.mp hnd).1
      simp [hnotin, alookup_dictSet, List.mem_cons]
    · have hset : alookup a (dictSet u (insert server ((alookup u d).getD ∅)) d) = alookup a d := by
        rw [alookup_dictSet]; simp [hau]
      rw [hset]
      simp [List.mem_cons, hau]


/-- Pointwise effect of one loop iteration on `igp_neighbours`. -/
theorem alookup_updateAdj (mesh : List String) (d : List (String × Finset String))
    (s : String) (sd : RouterData) (a : String) :
    alookup a (updateAdj mesh d s sd) =
      if a = s then
        some (if s ∈ sd.igp_upstreams then insert s (newEntry mesh d s sd)
              else newEntry mesh d s sd)
      else if a ∈ sd.igp_upstreams then some (insert s ((alookup a d).getD ∅))
      else alookup a d := by
  simp only [updateAdj]
  rw [alookup_revFold s a sd.igp_upstreams.dedup _ (List.nodup_dedup _)]
  have hd1 : alookup s (setdefaultEmpty d s) = some ((alookup s d).getD ∅) := by
    rw [alookup_setdefaultEmpty]; simp
  by_cases has : a = s
  · subst has
    by_cases hup : a ∈ sd.igp_upstreams
    · simp [List.mem_dedup, hup, alookup_dictSet, hd1, newEntry]
    · simp [List.mem_dedup, hup, alookup_dictSet, hd1, newEntry]
  · by_cases hup : a ∈ sd.igp_upstreams
    · simp [List.mem_dedup, hup, has, alookup_dictSet, alookup_setdefaultEmpty]
    · simp [List.mem_dedup, hup, has, alookup_dictSet, alookup_setdefaultEmpty]

theorem mem_revNeighbours {ps : List (String × RouterData)} {a b : String} :
    b ∈ revNeighbours ps a ↔ ∃ sd, (b, sd) ∈ ps ∧ a ∈ sd.igp_upstreams := by
  unfold revNeighbours
  simp only [List.mem_toFinset, List.mem_map, List.mem_filter, decide_eq_true_eq]
  constructor
  · rintro ⟨⟨b', sd⟩, ⟨hmem, hup⟩, rfl⟩
    exact ⟨sd, hmem, hup⟩
  · rintro ⟨sd, hmem, hup⟩
    exact ⟨(b, sd), ⟨hmem, hup⟩, rfl⟩

theorem revNeighbours_append (ps : List (String × RouterData)) (s : String)
    (sd : RouterData) (a : String) :
    revNeighbours (ps ++ [(s, sd)]) a =
      revNeighbours ps a ∪ (if a ∈ sd.igp_upstreams then {s} else ∅) := by
  unfold revNeighbours
  rw [List.filter_append, List.map_append, List.toFinset_append]
  congr 1
  by_cases h : a ∈ sd.igp_upstreams <;> simp [h]


theorem adjInv_nil (mesh : List String) : adjInv mesh [] [] := by
  intro a
  simp [alookup_nil, revNeighbours, Finset.not_nonempty_empty]

theorem not_mem_revNeighbours_self {ps : List (String × RouterData)} {s : String}
    (hs : alookup s ps = none) : s ∉ revNeighbours ps s := by
  intro h
  obtain ⟨sd, hmem, -⟩ := mem_revNeighbours.mp h
  have : s ∈ ps.map Prod.fst := List.mem_map.mpr ⟨(s, sd), hmem, rfl⟩
  exact alookup_eq_none_iff.mp hs this

theorem adjInv_step {mesh : List String} {ps : List (String × RouterData)}
    {d : List (String × Finset String)} (s : String) (sd : RouterData)
    (hinv : adjInv mesh ps d) (hs : alookup s ps = none) :
    adjInv mesh (ps ++ [(s, sd)]) (updateAdj mesh d s sd) := by
  intro a
  have hsd : (alookup s d).getD ∅ = revNeighbours ps s := by
    have hx := hinv s
    rw [hs] at hx
    simp only at hx
    rw [hx]
    by_cases hne : (revNeighbours ps s).Nonempty
    · rw [if_pos hne]; rfl
    · rw [if_neg hne]
      simp [Finset.not_nonempty_iff_eq_empty.mp hne]
  by_cases has : a = s
  · subst has
    have hlook : alookup a (ps ++ [(a, sd)]) = some sd := by
      rw [alookup_append, hs]
      simp [alookup_cons]
    rw [hlook]
    show alookup a (updateAdj mesh d a sd) =
      some (meshNeighbours mesh a ∪ sd.igp_upstreams.toFinset ∪
        revNeighbours (ps ++ [(a, sd)]) a)
    have hself : a ∉ revNeighbours ps a := not_mem_revNeighbours_self hs
    have hentry : newEntry mesh d a sd =
        meshNeighbours mesh a ∪ sd.igp_upstreams.toFinset ∪ revNeighbours ps a := by
      unfold newEntry meshNeighbours
      rw [hsd]
      by_cases hm : a ∈ mesh
      · rw [if_pos hm, if_pos hm]
        ext b
        simp only [Finset.mem_union, Finset.mem_erase, List.mem_toFinset, List.mem_dedup]
        constructor
        · rintro (⟨hbs, hb | hb⟩ | hb)
          · exact Or.inr hb
          · exact Or.inl (Or.inl ⟨hbs, hb⟩)
          · exact Or.inl (Or.inr hb)
        · rintro ((⟨hbs, hb⟩ | hb) | hb)
          · exact Or.inl ⟨hbs, Or.inr hb⟩
          · exact Or.inr hb
          · have hbs : b ≠ a := fun h => hself (h ▸ hb)
            exact Or.inl ⟨hbs, Or.inl hb⟩
      · rw [if_neg hm, if_neg hm]
        ext b
        simp only [Finset.mem_union, Finset.not_mem_empty, List.mem_toFinset, List.mem_dedup]
        tauto
    rw [alookup_updateAdj, if_pos rfl, hentry, revNeighbours_append]
    by_cases hup : a ∈ sd.igp_upstreams
    · rw [if_pos hup, if_pos hup]
      congr 1
      ext b
      simp only [Finset.mem_insert, Finset.mem_union, Finset.mem_singleton]
      tauto
    · rw [if_neg hup, if_neg hup]
      congr 1
      ext b
      simp only [Finset.mem_union, Finset.not_mem_empty]
      tauto
  · have hlook : alookup a (ps ++ [(s, sd)]) = alookup a ps := by
      rw [alookup_append]
      cases hps : alookup a ps with
      | some v => rfl
      | none =>
        have h2 : ¬ s = a := fun h => has h.symm
        simp [alookup_cons, alookup_nil, h2]
    rw [hlook]
    have haps := hinv a
    have hrev := revNeighbours_append ps s sd a
    cases hps : alookup a ps with
    | some sdA =>
      rw [hps] at haps
      simp only at haps
      show alookup a (updateAdj mesh d s sd) =
        some (meshNeighbours mesh a ∪ sdA.igp_upstreams.toFinset ∪
          revNeighbours (ps ++ [(s, sd)]) a)
      rw [alookup_updateAdj, if_neg has]
      by_cases hup : a ∈ sd.igp_upstreams
      · rw [if_pos hup, haps]
        simp only [Option.getD_some, Option.some.injEq]
        rw [hrev, if_pos hup]
        ext b
        simp only [Finset.mem_insert, Finset.mem_union, Finset.mem_singleton]
        tauto
      · rw [if_neg hup, haps, hrev, if_neg hup]
        simp
    | none =>
      rw [hps] at haps
      simp only at haps
      show alookup a (updateAdj mesh d s sd) =
        if (revNeighbours (ps ++ [(s, sd)]) a).Nonempty
        then some (revNeighbours (ps ++ [(s, sd)]) a) else none
      rw [alookup_updateAdj, if_neg has]
      by_cases hup : a ∈ sd.igp_upstreams
      · rw [if_pos hup, haps, hrev, if_pos hup]
        have hne : (revNeighbours ps a ∪ {s}).Nonempty := ⟨s, by simp⟩
        rw [if_pos hne]
        by_cases hne2 : (revNeighbours ps a).Nonempty
        · rw [if_pos hne2]
          simp only [Option.getD_some, Option.some.injEq]
          ext b
          simp only [Finset.mem_insert, Finset.mem_union, Finset.mem_singleton]
          tauto
        · rw [if_neg hne2]
          simp only [Option.getD_none, Option.some.injEq]
          rw [Finset.not_nonempty_iff_eq_empty.mp hne2]
          ext b
          simp only [Finset.mem_insert, Finset.mem_union, Finset.mem_singleton,
            Finset.not_mem_empty]
          tauto
      · rw [if_neg hup, haps, hrev, if_neg hup]
        simp

theorem alookup_eq_some_of_mem {β : Type} :
    ∀ {l : List (String × β)}, (l.map Prod.fst).Nodup →
      ∀ {k : String} {v : β}, (k, v) ∈ l → alookup k l = some v
  | p :: rest, hnd, k, v, hmem => by
    simp only [List.map_cons, List.nodup_cons] at hnd
    obtain ⟨hp, hnd2⟩ := hnd
    rw [alookup_cons]
    rcases List.mem_cons.mp hmem with h | h
    · rw [← h]
      simp
    · have hp1 : ¬ p.1 = k := by
        intro he
        exact hp (by rw [he]; exact List.mem_map.mpr ⟨(k, v), h, rfl⟩)
      rw [if_neg hp1]
      exact alookup_eq_some_of_mem hnd2 h

theorem processRouter_ok {mesh : List String} {st : DeriveState} {s : String}
    {sd : RouterData} {st1 : DeriveState} (h : processRouter mesh st s sd = .ok st1) :
    st1.igp_neighbours = updateAdj mesh st.igp_neighbours s sd ∧
    st1.seen_shortnames = st.seen_shortnames ++ [(sd.shortname, s)] := by
  unfold processRouter at h
  cases hsn : alookup sd.shortname st.seen_shortnames with
  | some v => simp [hsn] at h
  | none =>
    rw [hsn] at h
    simp only at h
    split at h
    · simp at h
    · injection h with h2
      subst h2
      exact ⟨rfl, rfl⟩

theorem adjInv_deriveAux {mesh : List String} :
    ∀ (l ps : List (String × RouterData)) (st st' : DeriveState),
      adjInv mesh ps st.igp_neighbours →
      (∀ p ∈ l, alookup p.1 ps = none) →
      (l.map Prod.fst).Nodup →
      deriveAux mesh st l = .ok st' →
      adjInv mesh (ps ++ l) st'.igp_neighbours
  | [], ps, st, st', hinv, _, _, h => by
    simp only [deriveAux] at h
    injection h with h2
    subst h2
    simpa using hinv
  | (s, sd) :: rest, ps, st, st', hinv, hfresh, hnd, h => by
    simp only [deriveAux] at h
    cases hp : processRouter mesh st s sd with
    | error e => rw [hp] at h; exact absurd h (by simp)
    | ok st1 =>
      rw [hp] at h
      simp only at h
      obtain ⟨hd, -⟩ := processRouter_ok hp
      simp only [List.map_cons, List.nodup_cons] at hnd
      obtain ⟨hhead, hnd2⟩ := hnd
      have hsfresh : alookup s ps = none := hfresh (s, sd) (List.mem_cons_self _ _)
      have hinv1 : adjInv mesh (ps ++ [(s, sd)]) st1.igp_neighbours := by
        rw [hd]; exact adjInv_step s sd hinv hsfresh
      have hfresh1 : ∀ p ∈ rest, alookup p.1 (ps ++ [(s, sd)]) = none := by
        intro p hp2
        rw [alookup_append, hfresh p (List.mem_cons_of_mem _ hp2)]
        have hne : ¬ s = p.1 := by
          intro he
          exact hhead (he ▸ List.mem_map.mpr ⟨p, hp2, rfl⟩)
        simp [alookup_cons, alookup_nil, hne]
      have hres := adjInv_deriveAux rest (ps ++ [(s, sd)]) st1 st' hinv1 hfresh1 hnd2 h
      simpa [List.append_assoc] using hres

theorem deriveAdjacency_ok_inv {inv : Inventory} {adj : List (String × Finset String)}
    (hnd : (inv.routers.map Prod.fst).Nodup)
    (h : deriveAdjacency inv = .ok adj) :
    adjInv inv.meshrouters inv.routers adj := by
  unfold deriveAdjacency at h
  cases hx : deriveAux inv.meshrouters ⟨[], []⟩ inv.routers with
  | error e => rw [hx] at h; exact absurd h (by simp)
  | ok st =>
    rw [hx] at h
    injection h with h2
    have hres := adjInv_deriveAux inv.routers [] ⟨[], []⟩ st (adjInv_nil _)
      (by intro p _; exact alookup_nil _) hnd hx
    rw [← h2]
    simpa using hres

theorem mem_meshNeighbours {mesh : List String} {a b : String} (hab : b ≠ a) :
    b ∈ meshNeighbours mesh a ↔ a ∈ mesh ∧ b ∈ mesh := by
  unfold meshNeighbours
  by_cases h : a ∈ mesh
  · simp [h, Finset.mem_erase, hab]
  · simp [h]

end Adjacency

section Checks


/-- The loop errors exactly as `checkRouters` says. -/
theorem deriveAux_check {mesh : List String} :
    ∀ (l : List (String × RouterData)) (st : DeriveState),
      (checkRouters mesh st.seen_shortnames l = none → ∃ st', deriveAux mesh st l = .ok st') ∧
      (∀ e, checkRouters mesh st.seen_shortnames l = some e → deriveAux mesh st l = .error e)
  | [], st => by
    constructor
    · intro _
      exact ⟨st, rfl⟩
    · intro e he
      simp [checkRouters] at he
  | (s, sd) :: rest, st => by
    simp only [checkRouters, deriveAux, processRouter]
    cases hsn : alookup sd.shortname st.seen_shortnames with
    | some first =>
      constructor
      · intro he
        simp at he
      · intro e he
        injection he with h2
        rw [← h2]
    | none =>
      simp only
      by_cases hx : decide (s ∈ mesh) = !sd.igp_upstreams.isEmpty
      · rw [if_pos hx, if_pos hx]
        constructor
        · intro he
          simp at he
        · intro e he
          injection he with h2
          rw [← h2]
      · rw [if_neg hx, if_neg hx]
        exact deriveAux_check rest
          { igp_neighbours := updateAdj mesh st.igp_neighbours s sd,
            seen_shortnames := st.seen_shortnames ++ [(sd.shortname, s)] }

theorem deriveAdjacency_check_none {inv : Inventory}
    (h : checkRouters inv.meshrouters [] inv.routers = none) :
    ∃ adj, deriveAdjacency inv = .ok adj := by
  obtain ⟨st', hst⟩ := (deriveAux_check inv.routers ⟨[], []⟩).1 h
  exact ⟨st'.igp_neighbours, by unfold deriveAdjacency; rw [hst]⟩

theorem deriveAdjacency_check_some {inv : Inventory} {e : Err}
    (h : checkRouters inv.meshrouters [] inv.routers = some e) :
    deriveAdjacency inv = .error e := by
  have hst := (deriveAux_check inv.routers ⟨[], []⟩).2 e h
  unfold deriveAdjacency
  rw [hst]

theorem deriveAdjacency_error_check {inv : Inventory} {e : Err}
    (h : deriveAdjacency inv = .error e) :
    checkRouters inv.meshrouters [] inv.routers = some e := by
  cases hc : checkRouters inv.meshrouters [] inv.routers with
  | none =>
    obtain ⟨adj, hadj⟩ := deriveAdjacency_check_none hc
    rw [hadj] at h
    exact absurd h (by simp)
  | some e' =>
    have := deriveAdjacency_check_some hc
    rw [this] at h
    injection h with h2
    rw [h2]

/-- The boolean XOR test of line 55 is exactly `violatesXor`. -/
theorem xor_test_iff (mesh : List String) (p : String × RouterData) :
    decide (p.1 ∈ mesh) = !p.2.igp_upstreams.isEmpty ↔ violatesXor mesh p := by
  unfold violatesXor
  by_cases hm : p.1 ∈ mesh
  · cases hl : p.2.igp_upstreams with
    | nil => simp [hm, hl]
    | cons x xs => simp [hm, hl]
  · cases hl : p.2.igp_upstreams with
    | nil => simp [hm, hl]
    | cons x xs => simp [hm, hl]

/-- With all shortnames fresh and pairwise distinct, `checkRouters` passes
iff no router violates the XOR constraint. -/
theorem checkRouters_none_iff {mesh : List String} :
    ∀ (l : List (String × RouterData)) (seen : List (String × String)),
      (∀ p ∈ l, alookup p.2.shortname seen = none) →
      ((l.map fun p => p.2.shortname).Nodup) →
      (checkRouters mesh seen l = none ↔ ∀ p ∈ l, ¬ violatesXor mesh p)
  | [], seen, _, _ => by simp [checkRouters]
  | (s, sd) :: rest, seen, hfresh, hnd => by
    simp only [checkRouters]
    rw [hfresh (s, sd) (List.mem_cons_self _ _)]
    simp only [List.map_cons, List.nodup_cons] at hnd
    obtain ⟨hhead, hnd2⟩ := hnd
    by_cases hx : decide (s ∈ mesh) = !sd.igp_upstreams.isEmpty
    · rw [if_pos hx]
      simp only
      constructor
      · intro he
        simp at he
      · intro hall
        exact absurd ((xor_test_iff mesh (s, sd)).mp hx)
          (hall (s, sd) (List.mem_cons_self _ _))
    · rw [if_neg hx]
      have hfresh2 : ∀ p ∈ rest, alookup p.2.shortname (seen ++ [(sd.shortname, s)]) = none := by
        intro p hp
        rw [alookup_append, hfresh p (List.mem_cons_of_mem _ hp)]
        have hne : ¬ sd.shortname = p.2.shortname := by
          intro he
          exact hhead (he ▸ List.mem_map.mpr ⟨p, hp, rfl⟩)
        simp [alookup_cons, alookup_nil, hne]
      rw [checkRouters_none_iff rest (seen ++ [(sd.shortname, s)]) hfresh2 hnd2]
      constructor
      · intro hall p hp
        rcases List.mem_cons.mp hp with h | h
        · subst h
          exact fun hv => hx ((xor_test_iff mesh (s, sd)).mpr hv)
        · exact hall p h
      · intro hall p hp
        exact hall p (List.mem_cons_of_mem _ hp)

/-- With all shortnames fresh and pairwise distinct, a `checkRouters`
failure is an XOR violation of some listed router. -/
theorem checkRouters_some_xor {mesh : List String} :
    ∀ (l : List (String × RouterData)) (seen : List (String × String)) (e : Err),
      (∀ p ∈ l, alookup p.2.shortname seen = none) →
      ((l.map fun p => p.2.shortname).Nodup) →
      checkRouters mesh seen l = some e →
      ∃ p ∈ l, violatesXor mesh p ∧ e = .xorViolation p.1
  | [], _, e, _, _, h => by simp [checkRouters] at h
  | (s, sd) :: rest, seen, e, hfresh, hnd, h => by
    simp only [checkRouters] at h
    rw [hfresh (s, sd) (List.mem_cons_self _ _)] at h
    simp only at h
    simp only [List.map_cons, List.nodup_cons] at hnd
    obtain ⟨hhead, hnd2⟩ := hnd
    by_cases hx : decide (s ∈ mesh) = !sd.igp_upstreams.isEmpty
    · rw [if_pos hx] at h
      injection h with h2
      exact ⟨(s, sd), List.mem_cons_self _ _, (xor_test_iff mesh (s, sd)).mp hx, h2.symm⟩
    · rw [if_neg hx] at h
      have hfresh2 : ∀ p ∈ rest, alookup p.2.shortname (seen ++ [(sd.shortname, s)]) = none := by
        intro p hp
        rw [alookup_append, hfresh p (List.mem_cons_of_mem _ hp)]
        have hne : ¬ sd.shortname = p.2.shortname := by
          intro he
          exact hhead (he ▸ List.mem_map.mpr ⟨p, hp, rfl⟩)
        simp [alookup_cons, alookup_nil, hne]
      obtain ⟨p, hp, hv, he⟩ := checkRouters_some_xor rest (seen ++ [(sd.shortname, s)]) e
        hfresh2 hnd2 h
      exact ⟨p, List.mem_cons_of_mem _ hp, hv, he⟩

/-- A duplicate shortname (relative to `seen` or within the list) always
makes the loop raise. -/
theorem checkRouters_dup_some {mesh : List String} :
    ∀ (l : List (String × RouterData)) (seen : List (String × String)),
      ((∃ p ∈ l, alookup p.2.shortname seen ≠ none) ∨
        ¬ (l.map fun p => p.2.shortname).Nodup) →
      checkRouters mesh seen l ≠ none
  | [], seen, h => by
    rcases h with ⟨p, hp, -⟩ | h
    · exact absurd hp (by simp)
    · exact absurd (by simp) h
  | (s, sd) :: rest, seen, h => by
    simp only [checkRouters]
    cases hsn : alookup sd.shortname seen with
    | some first => simp
    | none =>
      simp only
      by_cases hx : decide (s ∈ mesh) = !sd.igp_upstreams.isEmpty
      · rw [if_pos hx]; simp
      · rw [if_neg hx]
        apply checkRouters_dup_some rest (seen ++ [(sd.shortname, s)])
        rcases h with ⟨p, hp, hne⟩ | hnd
        · rcases List.mem_cons.mp hp with he | he
          · subst he
            exact absurd hsn hne
          · refine Or.inl ⟨p, he, ?_⟩
            rw [alookup_append]
            cases hq : alookup p.2.shortname seen with
            | some v => simp
            | none => exact absurd hq hne
        · simp only [List.map_cons, List.nodup_cons, not_and_or] at hnd
          rcases hnd with hmem | hnd2
          · rw [not_not] at hmem
            obtain ⟨p, hp, hpe⟩ := List.mem_map.mp hmem
            refine Or.inl ⟨p, hp, ?_⟩
            rw [alookup_append, hpe]
            cases hq : alookup sd.shortname seen with
            | some v => simp
            | none => simp [alookup_cons]
          · exact Or.inr hnd2

end Checks

section Allocation

theorem mem_combinations2 {α : Type} :
    ∀ {l : List α} {p : α × α}, p ∈ combinations2 l → p.1 ∈ l ∧ p.2 ∈ l
  | x :: xs, p, h => by
    simp only [combinations2, List.mem_append, List.mem_map] at h
    rcases h with ⟨y, hy, he⟩ | h
    · rw [← he]
      exact ⟨List.mem_cons_self _ _, List.mem_cons_of_mem _ hy⟩
    · obtain ⟨h1, h2⟩ := mem_combinations2 h
      exact ⟨List.mem_cons_of_mem _ h1, List.mem_cons_of_mem _ h2⟩

theorem combinations2_cover {α : Type} :
    ∀ {l : List α} {a b : α}, a ∈ l → b ∈ l → a ≠ b →
      (a, b) ∈ combinations2 l ∨ (b, a) ∈ combinations2 l
  | x :: xs, a, b, ha, hb, hab => by
    rcases List.mem_cons.mp ha with hax | hax
    · rcases List.mem_cons.mp hb with hbx | hbx
      · exact absurd (hax.trans hbx.symm) hab
      · refine Or.inl ?_
        simp only [combinations2, List.mem_append, List.mem_map]
        exact Or.inl ⟨b, hbx, by rw [hax]⟩
    · rcases List.mem_cons.mp hb with hbx | hbx
      · refine Or.inr ?_
        simp only [combinations2, List.mem_append, List.mem_map]
        exact Or.inl ⟨a, hax, by rw [hbx]⟩
      · rcases combinations2_cover hax hbx hab with h | h
        · refine Or.inl ?_
          simp only [combinations2, List.mem_append]
          exact Or.inr h
        · refine Or.inr ?_
          simp only [combinations2, List.mem_append]
          exact Or.inr h

theorem allocStep_lookup_isSome {st : Nat × List (String × Nat)} {pr : String × String}
    {k : String} (h : (alookup k st.2).isSome) :
    (alookup k (allocStep st pr).2).isSome := by
  simp only [allocStep]
  split
  · exact alookup_isSome_dictSet _ _ _ _ (alookup_isSome_dictSet _ _ _ _ h)
  · exact h

theorem allocAux_lookup_isSome :
    ∀ (L : List (String × String)) (st : Nat × List (String × Nat)) (k : String),
      (alookup k st.2).isSome → (alookup k (allocAux st L).2).isSome
  | [], _, _, h => h
  | pr :: rest, st, k, h =>
    allocAux_lookup_isSome rest (allocStep st pr) k (allocStep_lookup_isSome h)

theorem allocStep_self_present (st : Nat × List (String × Nat)) (pr : String × String) :
    (alookup (pairKey pr.1 pr.2) (allocStep st pr).2).isSome ∧
    (alookup (pairKey pr.2 pr.1) (allocStep st pr).2).isSome := by
  simp only [allocStep]
  split
  · constructor
    · rw [alookup_dictSet]
      split
      · simp
      · rw [alookup_dictSet, if_pos rfl]
        simp
    · rw [alookup_dictSet, if_pos rfl]
      simp
  · rename_i hcond
    simp only [Bool.or_eq_true, not_or, Option.isNone_iff_eq_none] at hcond
    exact ⟨Option.ne_none_iff_isSome.mp hcond.1, Option.ne_none_iff_isSome.mp hcond.2⟩

theorem allocAux_pairs_present :
    ∀ (L : List (String × String)) (st : Nat × List (String × Nat)) (pr : String × String),
      pr ∈ L →
      (alookup (pairKey pr.1 pr.2) (allocAux st L).2).isSome ∧
      (alookup (pairKey pr.2 pr.1) (allocAux st L).2).isSome
  | q :: rest, st, pr, h => by
    simp only [allocAux]
    rcases List.mem_cons.mp h with he | he
    · subst he
      exact ⟨allocAux_lookup_isSome rest _ _ (allocStep_self_present st pr).1,
             allocAux_lookup_isSome rest _ _ (allocStep_self_present st pr).2⟩
    · exact allocAux_pairs_present rest (allocStep st q) pr he

theorem allocStep_id_of_present {st : Nat × List (String × Nat)} {pr : String × String}
    (h1 : (alookup (pairKey pr.1 pr.2) st.2).isSome)
    (h2 : (alookup (pairKey pr.2 pr.1) st.2).isSome) :
    allocStep st pr = st := by
  obtain ⟨v1, hv1⟩ := Option.isSome_iff_exists.mp h1
  obtain ⟨v2, hv2⟩ := Option.isSome_iff_exists.mp h2
  simp [allocStep, hv1, hv2]

theorem allocAux_id_of_present :
    ∀ (L : List (String × String)) (st : Nat × List (String × Nat)),
      (∀ pr ∈ L, (alookup (pairKey pr.1 pr.2) st.2).isSome ∧
                 (alookup (pairKey pr.2 pr.1) st.2).isSome) →
      allocAux st L = st
  | [], _, _ => rfl
  | pr :: rest, st, h => by
    have hid := allocStep_id_of_present (h pr (List.mem_cons_self _ _)).1
      (h pr (List.mem_cons_self _ _)).2
    simp only [allocAux, hid]
    exact allocAux_id_of_present rest st (fun q hq => h q (List.mem_cons_of_mem _ hq))

theorem allocStep_values_lt {st : Nat × List (String × Nat)} {pr : String × String}
    (h : ∀ p ∈ st.2, p.2 < st.1) :
    ∀ p ∈ (allocStep st pr).2, p.2 < (allocStep st pr).1 := by
  simp only [allocStep]
  split
  · intro p hp
    rcases mem_dictSet hp with he | hp2
    · subst he
      exact Nat.lt_succ_self _
    · rcases mem_dictSet hp2 with he | hp3
      · subst he
        exact Nat.lt_succ_self _
      · exact Nat.lt_succ_of_lt (h p hp3)
  · exact h

theorem allocAux_values_lt :
    ∀ (L : List (String × String)) (st : Nat × List (String × Nat)),
      (∀ p ∈ st.2, p.2 < st.1) → ∀ p ∈ (allocAux st L).2, p.2 < (allocAux st L).1
  | [], _, h => h
  | pr :: rest, st, h => allocAux_values_lt rest (allocStep st pr) (allocStep_values_lt h)

theorem allocStep_frame {st : Nat × List (String × Nat)} {pr : String × String} {k : String}
    (h1 : ¬ k = pairKey pr.1 pr.2) (h2 : ¬ k = pairKey pr.2 pr.1) :
    alookup k (allocStep st pr).2 = alookup k st.2 := by
  simp only [allocStep]
  split
  · rw [alookup_dictSet, if_neg h2, alookup_dictSet, if_neg h1]
  · rfl

theorem allocAux_frame :
    ∀ (L : List (String × String)) (st : Nat × List (String × Nat)) (k : String),
      alookup k (allocAux st L).2 ≠ alookup k st.2 →
      ∃ pr ∈ L, k = pairKey pr.1 pr.2 ∨ k = pairKey pr.2 pr.1
  | [], _, _, h => absurd rfl h
  | pr :: rest, st, k, h => by
    simp only [allocAux] at h
    by_cases h1 : k = pairKey pr.1 pr.2
    · exact ⟨pr, List.mem_cons_self _ _, Or.inl h1⟩
    · by_cases h2 : k = pairKey pr.2 pr.1
      · exact ⟨pr, List.mem_cons_self _ _, Or.inr h2⟩
      · have hstep := @allocStep_frame st pr k h1 h2
        have h3 : alookup k (allocAux (allocStep st pr) rest).2 ≠
            alookup k (allocStep st pr).2 := by
          rw [hstep]
          exact h
        obtain ⟨q, hq, hor⟩ := allocAux_frame rest (allocStep st pr) k h3
        exact ⟨q, List.mem_cons_of_mem _ hq, hor⟩

/-- Keys present in the prior table keep their values, provided the prior
table contains either both orderings of each enumerated pair or neither. -/
theorem allocAux_preserves_prior {prior : List (String × Nat)} :
    ∀ (L : List (String × String)) (st : Nat × List (String × Nat)),
      (∀ pr ∈ L, ((alookup (pairKey pr.1 pr.2) prior).isSome ↔
                  (alookup (pairKey pr.2 pr.1) prior).isSome)) →
      (∀ k v, alookup k prior = some v → alookup k st.2 = some v) →
      ∀ k v, alookup k prior = some v → alookup k (allocAux st L).2 = some v
  | [], _, _, hpres, k, v, hk => hpres k v hk
  | pr :: rest, st, hsym, hpres, k, v, hk => by
    simp only [allocAux]
    apply allocAux_preserves_prior rest (allocStep st pr)
      (fun q hq => hsym q (List.mem_cons_of_mem _ hq))
    · intro k' v' hk'
      have hsym1 := hsym pr (List.mem_cons_self _ _)
      simp only [allocStep]
      split
      · rename_i hcond
        have hcmbp : alookup (pairKey pr.1 pr.2) prior = none := by
          cases hq : alookup (pairKey pr.1 pr.2) prior with
          | none => rfl
          | some w =>
            exfalso
            have hcur1 : alookup (pairKey pr.1 pr.2) st.2 = some w := hpres _ _ hq
            have hrevp : (alookup (pairKey pr.2 pr.1) prior).isSome := hsym1.mp (by simp [hq])
            obtain ⟨w2, hq2⟩ := Option.isSome_iff_exists.mp hrevp
            have hcur2 : alookup (pairKey pr.2 pr.1) st.2 = some w2 := hpres _ _ hq2
            rw [Bool.or_eq_true] at hcond
            rcases hcond with hc | hc
            · rw [hcur1] at hc
              simp at hc
            · rw [hcur2] at hc
              simp at hc
        have hrevp : alookup (pairKey pr.2 pr.1) prior = none := by
          cases hq : alookup (pairKey pr.2 pr.1) prior with
          | none => rfl
          | some w =>
            exfalso
            have hcmb2 : (alookup (pairKey pr.1 pr.2) prior).isSome := hsym1.mpr (by simp [hq])
            rw [hcmbp] at hcmb2
            simp at hcmb2
        have hk1 : ¬ k' = pairKey pr.1 pr.2 := by
          intro he
          rw [he, hcmbp] at hk'
          exact Option.noConfusion hk'
        have hk2 : ¬ k' = pairKey pr.2 pr.1 := by
          intro he
          rw [he, hrevp] at hk'
          exact Option.noConfusion hk'
        rw [alookup_dictSet, if_neg hk2, alookup_dictSet, if_neg hk1]
        exact hpres _ _ hk'
      · exact hpres _ _ hk'
    · exact hk

end Allocation

section PairKeys


theorem string_data_inj {a b : String} (h : a.data = b.data) : a = b := by
  cases a
  cases b
  exact congrArg String.mk h

theorem append_cons_inj {c : Char} :
    ∀ (X A B Y : List Char), c ∉ X → c ∉ Y →
      A ++ c :: B = X ++ c :: Y → A = X ∧ B = Y
  | [], A, B, Y, _, hY, h => by
    cases A with
    | nil =>
      simp only [List.nil_append] at h
      injection h with h1 h2
      exact ⟨rfl, h2⟩
    | cons a A' =>
      simp only [List.cons_append, List.nil_append] at h
      injection h with h1 h2
      exfalso
      apply hY
      rw [← h2]
      exact List.mem_append.mpr (Or.inr (List.mem_cons_self _ _))
  | x :: X', A, B, Y, hX, hY, h => by
    cases A with
    | nil =>
      simp only [List.nil_append, List.cons_append] at h
      injection h with h1 h2
      exact absurd (List.mem_cons.mpr (Or.inl h1)) hX
    | cons a A' =>
      simp only [List.cons_append] at h
      injection h with h1 h2
      have hX' : c ∉ X' := fun hc => hX (List.mem_cons_of_mem _ hc)
      obtain ⟨hA, hB⟩ := append_cons_inj X' A' B Y hX' hY h2
      exact ⟨by rw [h1, hA], hB⟩

theorem comma_data : (",").data = [','] := rfl

/-- Pair keys are unambiguous as long as the identifiers on one side are
comma-free. -/
theorem pairKey_inj {x y a b : String} (hx : ',' ∉ x.data) (hy : ',' ∉ y.data)
    (h : pairKey a b = pairKey x y) : a = x ∧ b = y := by
  unfold pairKey at h
  have hd : a.data ++ ',' :: b.data = x.data ++ ',' :: y.data := by
    have h2 := congrArg String.data h
    rw [String.data_append, String.data_append, String.data_append,
      String.data_append, comma_data] at h2
    simpa using h2
  obtain ⟨h1, h2⟩ := append_cons_inj x.data a.data b.data y.data hx hy hd
  exact ⟨string_data_inj h1, string_data_inj h2⟩

theorem allocStep_fullSym {st : Nat × List (String × Nat)} {x y : String}
    (hx : ',' ∉ x.data) (hy : ',' ∉ y.data) (hsym : fullSym st.2) :
    fullSym (allocStep st (x, y)).2 := by
  intro a b
  simp only [allocStep]
  split
  · rw [alookup_dictSet, alookup_dictSet, alookup_dictSet, alookup_dictSet]
    by_cases h1 : pairKey a b = pairKey y x
    · obtain ⟨ha, hb⟩ := pairKey_inj hy hx h1
      subst ha
      subst hb
      rw [if_pos rfl]
      by_cases h : pairKey b a = pairKey a b
      · rw [if_pos h]
      · rw [if_neg h, if_pos rfl]
    · by_cases h2 : pairKey a b = pairKey x y
      · obtain ⟨ha, hb⟩ := pairKey_inj hx hy h2
        subst ha
        subst hb
        rw [if_neg h1, if_pos rfl, if_pos rfl]
      · have h3 : ¬ pairKey b a = pairKey y x := by
          intro hq
          obtain ⟨hb, ha⟩ := pairKey_inj hy hx hq
          exact h2 (by rw [ha, hb])
        have h4 : ¬ pairKey b a = pairKey x y := by
          intro hq
          obtain ⟨hb, ha⟩ := pairKey_inj hx hy hq
          exact h1 (by rw [ha, hb])
        rw [if_neg h1, if_neg h2, if_neg h3, if_neg h4]
        exact hsym a b
  · exact hsym a b

theorem allocAux_fullSym :
    ∀ (L : List (String × String)) (st : Nat × List (String × Nat)),
      (∀ pr ∈ L, ',' ∉ pr.1.data ∧ ',' ∉ pr.2.data) →
      fullSym st.2 → fullSym (allocAux st L).2
  | [], _, _, h => h
  | pr :: rest, st, hcf, h => by
    simp only [allocAux]
    have hpr := hcf pr (List.mem_cons_self _ _)
    refine allocAux_fullSym rest (allocStep st pr)
      (fun q hq => hcf q (List.mem_cons_of_mem _ hq)) ?_
    obtain ⟨x, y⟩ := pr
    exact allocStep_fullSym hpr.1 hpr.2 h

end PairKeys

section Claims

/-- C1 (amended): for a pair of routers, the loop body leaves the port state
untouched if and only if BOTH key orderings are already present; if either
key ordering is missing it assigns the current counter value to both key
orderings and increments the counter.  (The original claim — that one
existing key suffices for reuse — is refuted by
`allocStep_reuse_counterexample`.) -/
theorem allocStep_fresh_iff (np : Nat) (ports : List (String × Nat)) (a b : String) :
    (((alookup (pairKey a b) ports).isSome ∧ (alookup (pairKey b a) ports).isSome) →
      allocStep (np, ports) (a, b) = (np, ports)) ∧
    ((alookup (pairKey a b) ports = none ∨ alookup (pairKey b a) ports = none) →
      (allocStep (np, ports) (a, b)).1 = np + 1 ∧
      alookup (pairKey a b) (allocStep (np, ports) (a, b)).2 = some np ∧
      alookup (pairKey b a) (allocStep (np, ports) (a, b)).2 = some np) := by
  constructor
  · intro h
    exact allocStep_id_of_present h.1 h.2
  · intro h
    have hcond :
        ((alookup (pairKey a b) ports).isNone || (alookup (pairKey b a) ports).isNone) = true := by
      rcases h with h | h <;> simp [h]
    simp only [allocStep]
    rw [if_pos hcond]
    refine ⟨rfl, ?_, ?_⟩
    · rw [alookup_dictSet]
      by_cases he : pairKey a b = pairKey b a
      · rw [if_pos he]
      · rw [if_neg he, alookup_dictSet, if_pos rfl]
    · rw [alookup_dictSet, if_pos rfl]

/-- Witness for C1's amended claim: with both orderings present the state is
unchanged; with only one ordering present a fresh port is written. -/
theorem allocStep_fresh_iff_witness :
    allocStep (10, [("A,B", 7), ("B,A", 9)]) ("A", "B") = (10, [("A,B", 7), ("B,A", 9)]) ∧
    alookup "A,B" (allocStep (101, [("A,B", 100)]) ("A", "B")).2 = some 101 :=
  ⟨(allocStep_fresh_iff 10 [("A,B", 7), ("B,A", 9)] "A" "B").1 ⟨by decide, by decide⟩,
   ((allocStep_fresh_iff 101 [("A,B", 100)] "A" "B").2 (Or.inr (by decide))).2.1⟩

/-- Counterexample to C1 as stated: the key `A,B` exists in the prior table
(with port 100), yet the allocator increments the counter and overwrites the
pair with the fresh port 101 instead of reusing 100, because the reverse key
`B,A` is missing. -/
theorem allocStep_reuse_counterexample :
    (alookup "A,B" [("A,B", 100)]).isSome ∧
    allocatePorts ["A", "B"] 101 [("A,B", 100)] = (102, [("A,B", 101), ("B,A", 101)]) ∧
    ¬ alookup "A,B" (allocatePorts ["A", "B"] 101 [("A,B", 100)]).2 = some 100 := by
  decide

/-- C9: on the inventory with exactly the three mesh routers X, Y, Z and the
absent-file default prior state (counter 55000, empty tables), the run
succeeds with adjacency X↦{Y,Z}, Y↦{X,Z}, Z↦{X,Y}; the pairs X-Y, X-Z, Y-Z
receive ports 55000, 55001, 55002 respectively (each number used for exactly
one pair, stored under both key orderings); and the final counter is 55003. -/
theorem scenario_mesh3 : run invMesh3 defaultState = .ok outMesh3 := by
  decide

/-- C2: for an inventory that passes validation (derivation returns `ok`),
and any two distinct inventory routers A and B, B is a derived neighbour of
A exactly when both are mesh members, or B is among A's declared upstreams,
or A is among B's declared upstreams.  (The router dict has unique keys, as
Python dicts do.) -/
theorem adjacency_characterisation (inv : Inventory)
    (adj : List (String × Finset String)) (A B : String) (sdA sdB : RouterData)
    (hnd : (inv.routers.map Prod.fst).Nodup)
    (hok : deriveAdjacency inv = .ok adj)
    (hA : alookup A inv.routers = some sdA)
    (hB : alookup B inv.routers = some sdB)
    (hAB : A ≠ B) :
    B ∈ lookupAdj adj A ↔
      ((A ∈ inv.meshrouters ∧ B ∈ inv.meshrouters) ∨
       B ∈ sdA.igp_upstreams ∨ A ∈ sdB.igp_upstreams) := by
  have hinv := deriveAdjacency_ok_inv hnd hok
  have hx := hinv A
  rw [hA] at hx
  simp only at hx
  unfold lookupAdj
  rw [hx]
  simp only [Option.getD_some, Finset.mem_union, List.mem_toFinset]
  have hrev : B ∈ revNeighbours inv.routers A ↔ A ∈ sdB.igp_upstreams := by
    constructor
    · intro h
      obtain ⟨sd', hmem, hup⟩ := mem_revNeighbours.mp h
      have hl := alookup_eq_some_of_mem hnd hmem
      rw [hB] at hl
      injection hl with h2
      exact h2 ▸ hup
    · intro h
      exact mem_revNeighbours.mpr ⟨sdB, mem_of_alookup_eq_some hB, h⟩
  rw [mem_meshNeighbours (fun h => hAB h.symm), hrev]
  tauto

/-- Witness for C2 on `invUp`: the leaf L has its upstream M1 as neighbour. -/
theorem adjacency_characterisation_witness :
    deriveAdjacency invUp = .ok adjUp ∧
    ("M1" ∈ lookupAdj adjUp "L" ↔
      (("L" ∈ invUp.meshrouters ∧ "M1" ∈ invUp.meshrouters) ∨
       "M1" ∈ (RouterData.mk "l" ["M1"]).igp_upstreams ∨
       "L" ∈ (RouterData.mk "m1" []).igp_upstreams)) :=
  ⟨by decide,
   adjacency_characterisation invUp adjUp "L" "M1" (RouterData.mk "l" ["M1"])
     (RouterData.mk "m1" []) (by decide) (by decide) (by decide) (by decide) (by decide)⟩

/-- C3: a successful run is idempotent — feeding its output state back as
the prior state of a second run on the same inventory reproduces exactly the
same output state (same counter, same adjacency table, same port table). -/
theorem run_idempotent (inv : Inventory) (st st₁ : State)
    (h : run inv st = .ok st₁) : run inv st₁ = .ok st₁ := by
  unfold run at h ⊢
  cases hd : deriveAdjacency inv with
  | error e =>
    rw [hd] at h
    exact absurd h (by simp)
  | ok adj =>
    rw [hd] at h
    simp only at h
    injection h with h2
    subst h2
    simp only
    have hall : ∀ pr ∈ combinations2 (inv.routers.map Prod.fst),
        (alookup (pairKey pr.1 pr.2)
          (allocatePorts (inv.routers.map Prod.fst) st.next_port st.igp_wg_ports).2).isSome ∧
        (alookup (pairKey pr.2 pr.1)
          (allocatePorts (inv.routers.map Prod.fst) st.next_port st.igp_wg_ports).2).isSome :=
      fun pr hpr => allocAux_pairs_present _ _ pr hpr
    have hid : allocatePorts (inv.routers.map Prod.fst)
        (allocatePorts (inv.routers.map Prod.fst) st.next_port st.igp_wg_ports).1
        (allocatePorts (inv.routers.map Prod.fst) st.next_port st.igp_wg_ports).2 =
        allocatePorts (inv.routers.map Prod.fst) st.next_port st.igp_wg_ports := by
      show allocAux (_, _) _ = _
      rw [Prod.mk.eta]
      exact allocAux_id_of_present _ _ hall
    rw [hid]

/-- Witness for C3: re-running `invMesh3` on its own output is a fixpoint. -/
theorem run_idempotent_witness : run invMesh3 outMesh3 = .ok outMesh3 :=
  run_idempotent invMesh3 defaultState outMesh3 (by decide)

/-- C4: if every port in the prior table is strictly below the prior
counter, then every port in the table after allocation is strictly below the
new counter. -/
theorem next_port_dominates (ids : List String) (np : Nat) (ports : List (String × Nat))
    (h : ∀ p ∈ ports, p.2 < np) :
    ∀ p ∈ (allocatePorts ids np ports).2, p.2 < (allocatePorts ids np ports).1 := by
  unfold allocatePorts
  exact allocAux_values_lt _ (np, ports) h

/-- Witness for C4: a prior entry stays below the advanced counter. -/
theorem next_port_dominates_witness :
    (5 : Nat) < (allocatePorts ["A", "B"] 10 [("X", 5)]).1 :=
  next_port_dominates ["A", "B"] 10 [("X", 5)] (by decide) ("X", 5) (by decide)

/-- C5 (amended): provided no router identifier contains a comma (so the
comma-joined pair keys are unambiguous) and the prior table is symmetric
under swapping key orderings, the table after allocation is symmetric —
`table[A,B] = table[B,A]` for all A, B — and every pair of distinct routers
is reachable under the key ordering `A,B` (hence under either ordering).
(The original unconditional claim is refuted by
`ports_symmetric_counterexample`, where comma-carrying identifiers make
distinct pairs collide on the same string key.) -/
theorem ports_symmetric (ids : List String) (np : Nat) (ports : List (String × Nat))
    (hcf : ∀ s ∈ ids, ',' ∉ s.data)
    (hsym : ∀ a b : String, alookup (pairKey a b) ports = alookup (pairKey b a) ports) :
    (∀ a b : String,
        alookup (pairKey a b) (allocatePorts ids np ports).2 =
        alookup (pairKey b a) (allocatePorts ids np ports).2) ∧
    (∀ a ∈ ids, ∀ b ∈ ids, a ≠ b →
        (alookup (pairKey a b) (allocatePorts ids np ports).2).isSome) := by
  have hfs : fullSym (allocatePorts ids np ports).2 := by
    unfold allocatePorts
    apply allocAux_fullSym
    · intro pr hpr
      obtain ⟨h1, h2⟩ := mem_combinations2 hpr
      exact ⟨hcf _ h1, hcf _ h2⟩
    · exact hsym
  refine ⟨hfs, ?_⟩
  intro a ha b hb hab
  rcases combinations2_cover ha hb hab with h | h
  · have hp := (allocAux_pairs_present (combinations2 ids) (np, ports) (a, b) h).1
    exact hp
  · have hp := (allocAux_pairs_present (combinations2 ids) (np, ports) (b, a) h).1
    have he := hfs a b
    unfold allocatePorts at he ⊢
    rw [he]
    exact hp

/-- Witness for C5's amended claim: from an empty (trivially symmetric)
prior table over comma-free identifiers, both orderings agree. -/
theorem ports_symmetric_witness :
    alookup (pairKey "A" "B") (allocatePorts ["A", "B"] 55000 []).2 =
    alookup (pairKey "B" "A") (allocatePorts ["A", "B"] 55000 []).2 :=
  (ports_symmetric ["A", "B"] 55000 [] (by decide) (fun _ _ => rfl)).1 "A" "B"

/-- Counterexample to C5 as stated: with routers named `X`, `Y,X` and `X,Y`
(all mesh members) and an empty prior state, the run succeeds, yet the pair
(X, Y,X) — which appears in the final table — has `table["X,Y,X"] = 55001`
but `table["Y,X,X"] = 55000`: the two key orderings of one pair disagree,
because the key `X,Y,X` was later overwritten as the reverse key of the
distinct pair (X, X,Y). -/
theorem ports_symmetric_counterexample :
    (run invComma defaultState).isOk ∧
    alookup (pairKey "X" "Y,X") (runPersist invComma defaultState).igp_wg_ports = some 55001 ∧
    alookup (pairKey "Y,X" "X") (runPersist invComma defaultState).igp_wg_ports = some 55000 := by
  decide

/-- C6 (amended): provided the prior table contains either both or neither
of the two key orderings of every enumerated pair (as every table the
allocator itself writes does), every key of the prior table is still present
after allocation with its prior value — entries are never removed,
renumbered, or reused, including keys of pairs no longer enumerated.  (The
original claim, for an arbitrary prior table, is refuted by
`ports_preserved_counterexample`: a prior entry present under only one key
ordering is renumbered.) -/
theorem ports_preserved (ids : List String) (np : Nat) (ports : List (String × Nat))
    (hsym : ∀ x y : String, (x, y) ∈ combinations2 ids →
      ((alookup (pairKey x y) ports).isSome ↔ (alookup (pairKey y x) ports).isSome)) :
    ∀ k v, alookup k ports = some v → alookup k (allocatePorts ids np ports).2 = some v := by
  unfold allocatePorts
  exact allocAux_preserves_prior _ (np, ports)
    (fun pr hpr => hsym pr.1 pr.2 (by simpa using hpr)) (fun _ _ h => h)

/-- Witness for C6's amended claim: a fully-present prior pair keeps its
port 7 across a run that adds router C. -/
theorem ports_preserved_witness :
    alookup "A,B" (allocatePorts ["A", "B", "C"] 8 [("A,B", 7), ("B,A", 7)]).2 = some 7 :=
  ports_preserved ["A", "B", "C"] 8 [("A,B", 7), ("B,A", 7)]
    (by
      intro x y h
      simp only [combinations2, List.map_cons, List.map_nil, List.cons_append,
        List.nil_append, List.mem_cons, List.not_mem_nil, or_false, Prod.mk.injEq] at h
      rcases h with ⟨rfl, rfl⟩ | ⟨rfl, rfl⟩ | ⟨rfl, rfl⟩ <;> decide)
    "A,B" 7 rfl

/-- Counterexample to C6 as stated: the prior table holds `A,B ↦ 100` under
a single key ordering; a run that adds router C renumbers that entry to the
fresh port 101 instead of preserving 100. -/
theorem ports_preserved_counterexample :
    alookup "A,B" [("A,B", 100)] = some 100 ∧
    alookup "A,B" (allocatePorts ["A", "B", "C"] 101 [("A,B", 100)]).2 = some 101 := by
  decide

/-- C7: over an inventory with pairwise distinct shortnames (the claim's
ambient assumption — duplicates are the other failure mode, settled
separately), derivation fails with the structural-constraint error
`xorViolation` exactly when some router is both a mesh member and declares a
non-empty `igp_upstreams` list, or is neither; and when no router violates
the constraint, derivation succeeds. -/
theorem xor_error_characterisation (inv : Inventory)
    (hsn : (inv.routers.map fun p => p.2.shortname).Nodup) :
    ((∃ s, deriveAdjacency inv = .error (.xorViolation s)) ↔
      ∃ p ∈ inv.routers, violatesXor inv.meshrouters p) ∧
    ((∀ p ∈ inv.routers, ¬ violatesXor inv.meshrouters p) →
      ∃ adj, deriveAdjacency inv = .ok adj) := by
  have hfresh : ∀ p ∈ inv.routers,
      alookup p.2.shortname ([] : List (String × String)) = none := fun p _ => rfl
  constructor
  · constructor
    · rintro ⟨s, hs⟩
      have hc := deriveAdjacency_error_check hs
      obtain ⟨p, hp, hv, -⟩ := checkRouters_some_xor inv.routers [] _ hfresh hsn hc
      exact ⟨p, hp, hv⟩
    · rintro ⟨p, hp, hv⟩
      cases hc : checkRouters inv.meshrouters [] inv.routers with
      | none =>
        have hall := (checkRouters_none_iff inv.routers [] hfresh hsn).mp hc
        exact absurd hv (hall p hp)
      | some e =>
        obtain ⟨q, hq, hvq, he⟩ := checkRouters_some_xor inv.routers [] e hfresh hsn hc
        exact ⟨q.1, he ▸ deriveAdjacency_check_some hc⟩
  · intro hall
    cases hc : checkRouters inv.meshrouters [] inv.routers with
    | none => exact deriveAdjacency_check_none hc
    | some e =>
      obtain ⟨q, hq, hvq, -⟩ := checkRouters_some_xor inv.routers [] e hfresh hsn hc
      exact absurd hvq (hall q hq)

/-- Witness for C7 on `invXor`: its lone router is neither mesh member nor
declares upstreams, and derivation indeed fails with `xorViolation`. -/
theorem xor_error_characterisation_witness :
    (∃ s, deriveAdjacency invXor = .error (.xorViolation s)) ↔
      ∃ p ∈ invXor.routers, violatesXor invXor.meshrouters p :=
  (xor_error_characterisation invXor (by decide)).1

/-- When no router violates the XOR constraint, any error the loop raises is
a duplicate-shortname error. -/
theorem checkRouters_some_dup {mesh : List String} :
    ∀ (l : List (String × RouterData)) (seen : List (String × String)) (e : Err),
      (∀ p ∈ l, ¬ violatesXor mesh p) →
      checkRouters mesh seen l = some e →
      ∃ sh a b, e = .dupShortname sh a b
  | [], _, e, _, h => by simp [checkRouters] at h
  | (s, sd) :: rest, seen, e, hall, h => by
    simp only [checkRouters] at h
    cases hsn : alookup sd.shortname seen with
    | some first =>
      rw [hsn] at h
      simp only at h
      injection h with h2
      exact ⟨sd.shortname, first, s, h2.symm⟩
    | none =>
      rw [hsn] at h
      simp only at h
      split at h
      · rename_i hx
        exact absurd ((xor_test_iff mesh (s, sd)).mp hx)
          (hall (s, sd) (List.mem_cons_self _ _))
      · exact checkRouters_some_dup rest _ e
          (fun p hp => hall p (List.mem_cons_of_mem _ hp)) h

/-- C8 (amended): when two distinct routers share a shortname, a run always
fails — with the duplicate-shortname error whenever no router fails the XOR
check (the shortname check is performed per-router, interleaved with
adjacency construction, so an XOR violation of an earlier-processed router
may be reported instead; `dup_check_order_counterexample` refutes the
original claim that the uniqueness check over all routers precedes adjacency
construction) — and on any validation error no port allocation is performed
and the persisted state is left entirely unmodified. -/
theorem dup_shortname_aborts (inv : Inventory) (prior : State)
    (hdup : ¬ (inv.routers.map fun p => p.2.shortname).Nodup) :
    (∃ e, run inv prior = .error e) ∧
    runPersist inv prior = prior ∧
    ((∀ p ∈ inv.routers, ¬ violatesXor inv.meshrouters p) →
      ∃ sh a b, run inv prior = .error (.dupShortname sh a b)) := by
  have hne := @checkRouters_dup_some inv.meshrouters inv.routers [] (Or.inr hdup)
  cases hc : checkRouters inv.meshrouters [] inv.routers with
  | none => exact absurd hc hne
  | some e =>
    have hd := deriveAdjacency_check_some hc
    have hrun : run inv prior = .error e := by
      unfold run
      rw [hd]
    refine ⟨⟨e, hrun⟩, ?_, ?_⟩
    · unfold runPersist
      rw [hrun]
    · intro hall
      obtain ⟨sh, a, b, he⟩ := checkRouters_some_dup inv.routers [] e hall hc
      exact ⟨sh, a, b, by rw [hrun, he]⟩

/-- Witness for C8's amended claim on `invDup` (two routers sharing
shortname `s`): the persisted state is untouched. -/
theorem dup_shortname_aborts_witness :
    runPersist invDup defaultState = defaultState :=
  (dup_shortname_aborts invDup defaultState (by decide)).2.1

/-- Counterexample to C8 as stated: in `invDupXor` the routers B and C (both
distinct from each other) share shortname `s`, yet the run fails with the
XOR error for router A, which is processed first — A's adjacency processing
and check happen before B and C's shortnames are ever compared, so the
uniqueness check over all routers does not precede adjacency construction. -/
theorem dup_check_order_counterexample :
    (("B", RouterData.mk "s" []) ∈ invDupXor.routers ∧
     ("C", RouterData.mk "s" []) ∈ invDupXor.routers ∧
     ("B" : String) ≠ "C") ∧
    deriveAdjacency invDupXor = .error (.xorViolation "A") := by
  decide

/-- C10: identifiers in `igp_upstreams` are not validated against the
inventory.  If router A declares an upstream `u` that is not an inventory
router, derivation nevertheless succeeds (given the inventory is otherwise
valid: unique keys, unique shortnames, XOR satisfied), `u` appears in A's
neighbour set, a new adjacency entry keyed by `u` containing A is created,
and port allocation never touches a pair involving `u`: enumeration ranges
only over inventory routers, and every key whose value differs from the
prior table belongs to a pair of inventory routers, neither of them `u`. -/
theorem phantom_upstream (inv : Inventory) (A u : String) (sdA : RouterData)
    (hnd : (inv.routers.map Prod.fst).Nodup)
    (hsn : (inv.routers.map fun p => p.2.shortname).Nodup)
    (hxor : ∀ p ∈ inv.routers, ¬ violatesXor inv.meshrouters p)
    (hA : alookup A inv.routers = some sdA)
    (hu : u ∈ sdA.igp_upstreams)
    (hnotin : alookup u inv.routers = none) :
    ∃ adj, deriveAdjacency inv = .ok adj ∧
      u ∈ lookupAdj adj A ∧
      A ∈ lookupAdj adj u ∧
      (∀ x y, (x, y) ∈ combinations2 (inv.routers.map Prod.fst) → x ≠ u ∧ y ≠ u) ∧
      (∀ (prior st' : State), run inv prior = .ok st' →
        ∀ k, alookup k st'.igp_wg_ports ≠ alookup k prior.igp_wg_ports →
          ∃ x y, (x, y) ∈ combinations2 (inv.routers.map Prod.fst) ∧ x ≠ u ∧ y ≠ u ∧
            (k = pairKey x y ∨ k = pairKey y x)) := by
  have hfresh : ∀ p ∈ inv.routers,
      alookup p.2.shortname ([] : List (String × String)) = none := fun p _ => rfl
  have hc : checkRouters inv.meshrouters [] inv.routers = none :=
    (checkRouters_none_iff inv.routers [] hfresh hsn).mpr
      (fun p hp hv => hxor p hp hv)
  obtain ⟨adj, hok⟩ := deriveAdjacency_check_none hc
  have hinv := deriveAdjacency_ok_inv hnd hok
  have humem : u ∉ inv.routers.map Prod.fst := alookup_eq_none_iff.mp hnotin
  refine ⟨adj, hok, ?_, ?_, ?_, ?_⟩
  · have hx := hinv A
    rw [hA] at hx
    simp only at hx
    unfold lookupAdj
    rw [hx]
    simp only [Option.getD_some, Finset.mem_union, List.mem_toFinset]
    exact Or.inl (Or.inr hu)
  · have hx := hinv u
    rw [hnotin] at hx
    simp only at hx
    have hmem : A ∈ revNeighbours inv.routers u :=
      mem_revNeighbours.mpr ⟨sdA, mem_of_alookup_eq_some hA, hu⟩
    unfold lookupAdj
    rw [hx, if_pos ⟨A, hmem⟩]
    simpa using hmem
  · intro x y hxy
    obtain ⟨hx1, hy1⟩ := mem_combinations2 hxy
    exact ⟨fun he => humem (he ▸ hx1), fun he => humem (he ▸ hy1)⟩
  · intro prior st' hrun k hne
    unfold run at hrun
    rw [hok] at hrun
    simp only at hrun
    injection hrun with h2
    subst h2
    have hne2 : alookup k (allocAux (prior.next_port, prior.igp_wg_ports)
        (combinations2 (inv.routers.map Prod.fst))).2 ≠
        alookup k (prior.next_port, prior.igp_wg_ports).2 := by
      exact hne
    obtain ⟨pr, hpr, hor⟩ := allocAux_frame _ _ k hne2
    obtain ⟨hx1, hy1⟩ := mem_combinations2 hpr
    exact ⟨pr.1, pr.2, by simpa using hpr,
      fun he => humem (he ▸ hx1), fun he => humem (he ▸ hy1), hor⟩

/-- Witness for C10 on `invPhantom`: leaf A declares the phantom upstream U. -/
theorem phantom_upstream_witness :
    ∃ adj, deriveAdjacency invPhantom = .ok adj ∧
      "U" ∈ lookupAdj adj "A" ∧
      "A" ∈ lookupAdj adj "U" ∧
      (∀ x y, (x, y) ∈ combinations2 (invPhantom.routers.map Prod.fst) →
        x ≠ "U" ∧ y ≠ "U") ∧
      (∀ (prior st' : State), run invPhantom prior = .ok st' →
        ∀ k, alookup k st'.igp_wg_ports ≠ alookup k prior.igp_wg_ports →
          ∃ x y, (x, y) ∈ combinations2 (invPhantom.routers.map Prod.fst) ∧
            x ≠ "U" ∧ y ≠ "U" ∧ (k = pairKey x y ∨ k = pairKey y x)) :=
  phantom_upstream invPhantom "A" "U" (RouterData.mk "a" ["U"])
    (by decide) (by decide) (by decide) rfl (by decide) rfl

end Claims

end IgpTunnels
